import Mathlib

/-!
Verification of the transactional file-mutation engine of create-codex
(src/atomic.ts, src/files.ts) against its natural-language specification.

The TypeScript source is shallowly embedded: every definition below mirrors
one function of the source, with filesystem state passed explicitly
(a flat map from paths to file contents), the cooperative JavaScript
concurrency of acquireLock modelled as a small-step scheduler over explicit
task states, and randomness (temp-file suffixes, backup names) modelled as
caller-supplied fresh names or a fresh counter.
-/

/-! ## RetryExecutor: withRetry (src/atomic.ts lines 6, 11-39) -/

/-- Mirrors the constant RETRY_DELAYS of src/atomic.ts line 6. -/
def RETRY_DELAYS : List Nat := [100, 500, 1000, 2000, 5000]

/-- Mirrors a Node.js error value: an optional errno code plus a message. -/
structure JsError where
  code : Option String
  message : String
deriving DecidableEq

/-- Mirrors the classification on src/atomic.ts line 31: the three errno codes
that make withRetry stop retrying. -/
def isPermanentCode : Option String → Bool
  | some c => c == "ENOENT" || c == "ENOTDIR" || c == "EISDIR"
  | none => false

/-- Mirrors RETRY_DELAYS[Math.min(i, RETRY_DELAYS.length - 1)]
(src/atomic.ts line 26). -/
def backoffDelay (i : Nat) : Nat :=
  RETRY_DELAYS.getD (min i (RETRY_DELAYS.length - 1)) 0

/-- Outcome of a withRetry run: the result (aggregated error string on
failure), the list of backoff delays actually waited, and the number of
times the operation was invoked. -/
structure RetryOut (α : Type) where
  res : Except String α
  waits : List Nat
  attempts : Nat

/-- Loop body of withRetry (src/atomic.ts lines 18-36). The operation is an
oracle from the attempt index to that invocation of the JS closure. The
argument i is the loop variable; fuel is maxRetries - i, so fuel = 0 exactly
when i === maxRetries (the break on line 24). Note the source waits the
backoff delay (line 27) BEFORE inspecting the error code (lines 29-34), so
even a permanent error incurs one backoff wait when i < maxRetries. -/
def retryGo {α : Type} (op : Nat → Except JsError α) (i fuel : Nat) :
    Except JsError α × List Nat × Nat :=
  match op i with
  | .ok a => (.ok a, [], 1)
  | .error e =>
    match fuel with
    | 0 => (.error e, [], 1)
    | fuel' + 1 =>
      let d := backoffDelay i
      if isPermanentCode e.code then (.error e, [d], 1)
      else
        let r := retryGo op (i + 1) fuel'
        (r.1, d :: r.2.1, r.2.2 + 1)

/-- Mirrors the aggregated error of src/atomic.ts line 38, including the
JavaScript falsy-string fallback of lastError?.message || (an Unknown error
text). -/
def aggregatedMsg (context : String) (maxRetries : Nat) (msg : String) : String :=
  context ++ " failed after " ++ toString maxRetries ++ " retries: " ++
    (if msg = "" then "Unknown error" else msg)

/-- Mirrors withRetry (src/atomic.ts lines 11-39). -/
def withRetry {α : Type} (op : Nat → Except JsError α) (context : String)
    (maxRetries : Nat) : RetryOut α :=
  match retryGo op 0 maxRetries with
  | (.ok a, ws, n) => ⟨.ok a, ws, n⟩
  | (.error e, ws, n) => ⟨.error (aggregatedMsg context maxRetries e.message), ws, n⟩

theorem retryGo_const_transient {α : Type} (e : JsError)
    (ht : isPermanentCode e.code = false) :
    ∀ fuel i, retryGo (α := α) (fun _ => .error e) i fuel =
      (.error e, (List.range fuel).map (fun j => backoffDelay (i + j)), fuel + 1) := by
  intro fuel
  induction fuel with
  | zero => intro i; simp [retryGo]
  | succ f ih =>
    intro i
    simp only [retryGo, ht, Bool.false_eq_true, if_false, ih (i + 1)]
    simp only [Prod.mk.injEq, true_and, and_true]
    rw [List.range_succ_eq_map]
    simp only [List.map_cons, List.map_map, Nat.add_zero]
    refine congrArg _ (List.map_congr_left ?_)
    intro j _
    simp only [Function.comp_apply]
    congr 1
    omega

/-- C5 counterexample: the claim states that a permanent error kind (here
ENOENT) aborts with no retry attempt AND no backoff wait. In the source the
backoff wait (src/atomic.ts line 27) happens BEFORE the error code is
inspected (lines 29-34), so a permanent error on the first attempt still
incurs the first scheduled wait of 100 ms. At the concrete input (an
operation that always fails with ENOENT, default maxRetries 5) the list of
waits is [100], not [], refuting the no-backoff-wait part of the claim. -/
theorem withRetry_permanent_still_waits :
    (withRetry (α := Unit) (fun _ => .error ⟨some "ENOENT", "no such file"⟩)
      "op" 5).waits = [100]
    ∧ (withRetry (α := Unit) (fun _ => .error ⟨some "ENOENT", "no such file"⟩)
      "op" 5).attempts = 1
    ∧ ¬ ((withRetry (α := Unit) (fun _ => .error ⟨some "ENOENT", "no such file"⟩)
      "op" 5).waits = []) := by
  decide

/-- C5 (amended): permanent error kinds (ENOENT, ENOTDIR, EISDIR) abort
after a single attempt with no further retry, but only after waiting the
backoff delay scheduled for that attempt; every other error kind waits per
the fixed schedule 100, 500, 1000, 2000, 5000 ms (clamped to 5000 once the
attempt index exceeds the schedule) and retries up to the attempt bound,
after which the aggregated error naming the context and the last underlying
cause is raised; a first-attempt success performs no waits. -/
theorem withRetry_behavior {α : Type} (e_p e_t : JsError) (a : α)
    (hp : isPermanentCode e_p.code = true) (ht : isPermanentCode e_t.code = false)
    (ctx : String) (m : Nat) (hm : 1 ≤ m) :
    (withRetry (fun _ => .error e_p) ctx m =
      (⟨.error (aggregatedMsg ctx m e_p.message), [backoffDelay 0], 1⟩ : RetryOut α))
    ∧ (withRetry (fun _ => .error e_t) ctx m =
      (⟨.error (aggregatedMsg ctx m e_t.message),
        (List.range m).map backoffDelay, m + 1⟩ : RetryOut α))
    ∧ (withRetry (fun _ => .ok a) ctx m = (⟨.ok a, [], 1⟩ : RetryOut α))
    ∧ backoffDelay 0 = 100
    ∧ (List.range 7).map backoffDelay = [100, 500, 1000, 2000, 5000, 5000, 5000] := by
  refine ⟨?_, ?_, by simp [withRetry, retryGo], rfl, rfl⟩
  · cases m with
    | zero => omega
    | succ m0 => simp [withRetry, retryGo, hp]
  · have h := retryGo_const_transient (α := α) e_t ht m 0
    have h2 : (List.range m).map (fun j => backoffDelay (0 + j)) =
        (List.range m).map backoffDelay :=
      List.map_congr_left (fun j _ => by rw [Nat.zero_add])
    rw [h2] at h
    simp only [withRetry, h]

/-- Witness for withRetry_behavior at concrete inputs. -/
theorem withRetry_behavior_witness :
    (withRetry (α := Nat) (fun _ => .error ⟨some "ENOENT", "x"⟩) "c" 2).waits = [100]
    ∧ (withRetry (α := Nat) (fun _ => .error ⟨some "EBUSY", "y"⟩) "c" 2).attempts = 3 := by
  have h := withRetry_behavior (α := Nat) ⟨some "ENOENT", "x"⟩ ⟨some "EBUSY", "y"⟩ 0
    (by decide) (by decide) "c" 2 (by decide)
  refine ⟨?_, ?_⟩
  · rw [h.1]
    rfl
  · rw [h.2.1]



/-! ## PathLock: acquireLock (src/atomic.ts lines 7-9, 41-100)

The cooperative JavaScript concurrency is modelled as a small-step scheduler:
each logical caller of acquireLock is a task whose program counter sits at
one of the await points of the source, and a schedule (an arbitrary list of
actions) decides which task advances at each step. Code between two await
points runs atomically, exactly as in the single-threaded JS event loop.

State mirrors the module-level maps of src/atomic.ts lines 8-9:
locks (the keys of the Map locks; its Promise values are never awaited by
anyone, so only key presence matters) and lockQueue (path to FIFO waiter
list) are keyed by the raw path string exactly as the source keys them,
while the set of on-disk .lock marker files is keyed by the path as the
operating system resolves it against the working directory — the source
hands the marker path to fs.writeFile/fs.unlink, and two spellings of the
same file denote one physical marker. A queue entry records the waiting
task id and whether the stored function is wrappedResolve (the source
pushes wrappedResolve on line 59, while the timeout handler on line 50
searches for the bare resolve, so the Bool lets the model mirror that exact
lookup). -/

/-- Phase of one acquireLock caller: ready (before line 46), queued (inside
the await on lines 47-61), woken (the queue promise resolved), locking k
(the k-th attempt of the writeFile-wx retry loop, lines 72-74), holding
(acquireLock returned), released (the unlock closure ran), failedTimeout
(the promise on line 52 rejected), failedLock (the throw on line 83). -/
inductive LockPhase where
| ready
| queued
| woken
| locking (attempt : Nat)
| holding
| released
| failedTimeout
| failedLock
deriving DecidableEq

/-- One caller of acquireLock and the path it asked for. -/
structure LockTask where
  path : String
  phase : LockPhase
deriving DecidableEq

/-- Whole-system state: the tasks, the two in-memory maps of src/atomic.ts
lines 8-9 (raw-string keys), and the set of on-disk .lock marker files
(keyed by the OS-resolved path of the locked file). -/
structure LockSys where
  tasks : List LockTask
  locks : List String
  queues : List (String × List (Nat × Bool))
  disk : List String
deriving DecidableEq

/-- Splits a character list into path components at the separator. -/
def splitPathAux : List Char → List Char → List (List Char)
  | [], acc => [acc.reverse]
  | c :: rest, acc =>
    if c = '/' then acc.reverse :: splitPathAux rest []
    else splitPathAux rest (c :: acc)

/-- Folds one path component into a canonical component stack: empty and
single-dot components vanish, dot-dot pops, anything else is kept. -/
def applyComponent (stack : List (List Char)) (comp : List Char) :
    List (List Char) :=
  if comp = [] then stack
  else if comp = ['.'] then stack
  else if comp = ['.', '.'] then stack.dropLast
  else stack ++ [comp]

/-- Renders a canonical component stack as an absolute path string. -/
def renderPath (comps : List (List Char)) : String :=
  String.mk ('/' :: List.intercalate ['/'] comps)

/-- Models the operating system resolving a (possibly relative) path
against the process working directory: make it absolute, then collapse
empty, dot and dot-dot components. acquireLock itself performs no
normalization — the in-memory Map keys on src/atomic.ts lines 46 and 69
are the raw strings — but every path the source hands to the filesystem,
in particular the marker file path on lines 42, 73 and 88, is resolved
this way by the kernel, so the physical identity of a marker file is its
resolved path: the markers of the spellings a and ./a are one file. -/
def resolvePath (cwd p : String) : String :=
  let full := match p.data with
    | '/' :: _ => p.data
    | _ => cwd.data ++ '/' :: p.data
  renderPath ((splitPathAux full []).foldl applyComponent [])

/-- Queue lookup: lockQueue.get(path) || []. -/
def queueFor (qs : List (String × List (Nat × Bool))) (p : String) : List (Nat × Bool) :=
  match qs.find? (fun q => q.1 == p) with
  | some q => q.2
  | none => []

/-- Queue update: lockQueue.set(path, entries), deleting the key when the
list is empty (mirroring lockQueue.delete on lines 81 and 96). -/
def setQueue (qs : List (String × List (Nat × Bool))) (p : String)
    (es : List (Nat × Bool)) : List (String × List (Nat × Bool)) :=
  if es.isEmpty then qs.filter (fun q => !(q.1 == p))
  else (p, es) :: qs.filter (fun q => !(q.1 == p))

/-- Map-key insertion: locks.set(path, ...) only affects key presence. -/
def insertKey (p : String) (l : List String) : List String :=
  if p ∈ l then l else p :: l

/-- Mirrors the timeout handler of src/atomic.ts lines 49-53: it computes
queue.indexOf(resolve) and splices that index out. The queue, however, holds
wrappedResolve entries (line 59), so the searched element (tid, false) is
never present and the splice never fires. -/
def timeoutRemove (q : List (Nat × Bool)) (target : Nat × Bool) : List (Nat × Bool) :=
  match q.indexOf? target with
  | some i => q.eraseIdx i
  | none => q

/-- Mirrors the wake logic shared by release (lines 92-97) and the
acquisition-failure cleanup (lines 77-82): shift the first waiter and call
it. The called function is wrappedResolve: clearTimeout plus resolve; if the
waiter promise was already rejected by its timeout, resolve is a no-op. -/
def wakeNext (s : LockSys) (p : String) : LockSys :=
  match queueFor s.queues p with
  | [] => s
  | (wid, _) :: rest =>
    let tasks := match s.tasks[wid]? with
      | some t => if t.phase = .queued then s.tasks.set wid { t with phase := .woken }
                  else s.tasks
      | none => s.tasks
    { s with queues := setQueue s.queues p rest, tasks := tasks }

/-- One scheduler step advancing task tid through acquireLock/release
(src/atomic.ts lines 41-100), with cwd the process working directory.
ready: the locks.has check on line 46 against the raw path key, either
enqueueing (lines 47-61) or proceeding; woken: the locks.set on line 69
after the queue promise resolved (the uncontended ready case performs the
same set in the same synchronous run); locking k: one writeFile-wx attempt
of the withRetry on lines 72-74 (maxRetries 3, so attempts 0..3) against
the physical marker file at the RESOLVED path — the wx create fails
whenever that file exists, also when it was created under a different
spelling — with the failure path (lines 75-84) deleting the in-memory lock
and waking the next waiter; holding: the release closure (lines 86-99),
whose unlink removes the physical marker. -/
def lockStep (cwd : String) (s : LockSys) (tid : Nat) : LockSys :=
  match s.tasks[tid]? with
  | none => s
  | some t =>
    match t.phase with
    | .ready =>
      if t.path ∈ s.locks then
        { s with
          queues := setQueue s.queues t.path (queueFor s.queues t.path ++ [(tid, true)])
          tasks := s.tasks.set tid { t with phase := .queued } }
      else
        { s with
          locks := insertKey t.path s.locks
          tasks := s.tasks.set tid { t with phase := .locking 0 } }
    | .woken =>
      { s with
        locks := insertKey t.path s.locks
        tasks := s.tasks.set tid { t with phase := .locking 0 } }
    | .locking k =>
      if resolvePath cwd t.path ∈ s.disk then
        if k < 3 then { s with tasks := s.tasks.set tid { t with phase := .locking (k + 1) } }
        else
          wakeNext
            { s with
              locks := s.locks.erase t.path
              tasks := s.tasks.set tid { t with phase := .failedLock } } t.path
      else
        { s with
          disk := resolvePath cwd t.path :: s.disk
          tasks := s.tasks.set tid { t with phase := .holding } }
    | .holding =>
      wakeNext
        { s with
          disk := s.disk.erase (resolvePath cwd t.path)
          locks := s.locks.erase t.path
          tasks := s.tasks.set tid { t with phase := .released } } t.path
    | _ => s

/-- The LOCK_TIMEOUT timer of task tid firing (src/atomic.ts lines 49-53):
only a task still suspended in the queue wait can time out (wrappedResolve
clears the timer first otherwise). The waiting promise rejects with the
Lock timeout error and the handler attempts the (ineffective) queue splice
via timeoutRemove. -/
def lockTimeout (s : LockSys) (tid : Nat) : LockSys :=
  match s.tasks[tid]? with
  | none => s
  | some t =>
    match t.phase with
    | .queued =>
      let q := queueFor s.queues t.path
      { s with
        queues := setQueue s.queues t.path (timeoutRemove q (tid, false))
        tasks := s.tasks.set tid { t with phase := .failedTimeout } }
    | _ => s

/-- A schedule action: either run the next synchronous segment of a task, or
fire a pending lock-wait timeout. -/
inductive LockAct where
| run (tid : Nat)
| timeout (tid : Nat)
deriving DecidableEq

/-- Run a whole schedule. -/
def lockRun (cwd : String) (s : LockSys) : List LockAct → LockSys
  | [] => s
  | .run tid :: rest => lockRun cwd (lockStep cwd s tid) rest
  | .timeout tid :: rest => lockRun cwd (lockTimeout s tid) rest

/-- Initial system: one ready task per requested path spelling; empty maps,
no marker files on disk. -/
def initLockSys (paths : List String) : LockSys :=
  ⟨paths.map (fun p => ⟨p, .ready⟩), [], [], []⟩

/-- Number of tasks currently holding the lock for the physical file whose
normalized absolute path is p (two spellings of the same file are counted
together). -/
def normHoldersCount (cwd : String) (s : LockSys) (p : String) : Nat :=
  s.tasks.countP (fun t => t.phase == .holding && resolvePath cwd t.path == p)

theorem countP_set_aux {α : Type} (q : α → Bool) :
    ∀ (l : List α) (i : Nat) (t t' : α), l[i]? = some t →
      (l.set i t').countP q + (q t).toNat = l.countP q + (q t').toNat := by
  intro l
  induction l with
  | nil => intro i t t' h; simp at h
  | cons a l ih =>
    intro i t t' h
    cases i with
    | zero =>
      simp only [List.getElem?_cons_zero, Option.some.injEq] at h
      subst h
      simp only [List.set_cons_zero, List.countP_cons]
      cases hq1 : q a <;> cases hq2 : q t' <;>
        simp [hq1, hq2, Bool.toNat]
    | succ n =>
      simp only [List.getElem?_cons_succ] at h
      simp only [List.set_cons_succ, List.countP_cons]
      have := ih n t t' h
      omega

theorem holding_pred_false {b : Bool} {t : LockTask} (h : t.phase ≠ .holding) :
    (t.phase == LockPhase.holding && b) = false := by
  have hb : (t.phase == LockPhase.holding) = false := by
    simpa using h
  simp [hb]

theorem countP_set_nonholding {l : List LockTask} {i : Nat} {t t' : LockTask}
    (h : l[i]? = some t) (h1 : t.phase ≠ .holding) (h2 : t'.phase ≠ .holding)
    (g : LockTask → Bool) :
    (l.set i t').countP (fun x => x.phase == .holding && g x)
      = l.countP (fun x => x.phase == .holding && g x) := by
  have hc := countP_set_aux (fun x => x.phase == LockPhase.holding && g x)
    l i t t' h
  simp only [holding_pred_false h1, holding_pred_false h2, Bool.toNat_false,
    add_zero] at hc
  exact hc

theorem wakeNext_normHolders (cwd : String) (s : LockSys) (p0 p : String) :
    normHoldersCount cwd (wakeNext s p0) p = normHoldersCount cwd s p := by
  unfold wakeNext
  cases hq : queueFor s.queues p0 with
  | nil => rfl
  | cons e rest =>
    obtain ⟨wid, b⟩ := e
    simp only
    cases ht : s.tasks[wid]? with
    | none => simp [normHoldersCount, ht]
    | some t =>
      by_cases hph : t.phase = .queued
      · simp only [ht, hph, if_pos rfl]
        unfold normHoldersCount
        simp only
        exact countP_set_nonholding ht (by rw [hph]; intro hc; cases hc)
          (by intro hc; cases hc) (fun x => resolvePath cwd x.path == p)
      · simp [normHoldersCount, ht, hph]

theorem wakeNext_disk (s : LockSys) (p0 : String) :
    (wakeNext s p0).disk = s.disk := by
  unfold wakeNext
  cases hq : queueFor s.queues p0 with
  | nil => rfl
  | cons e rest =>
    obtain ⟨wid, b⟩ := e
    cases ht : s.tasks[wid]? <;> simp [ht]

/-- Invariant giving mutual exclusion: per physical file (normalized path)
at most one task is in the holding phase, and a holding task implies the
on-disk marker file is present (the wx create on src/atomic.ts line 73 is
the only way to reach the holding phase, and the release closure is the
only unlink). -/
def LockInv (cwd : String) (s : LockSys) : Prop :=
  ∀ p, normHoldersCount cwd s p ≤ 1
    ∧ (1 ≤ normHoldersCount cwd s p → p ∈ s.disk)

theorem wakeNext_inv {cwd : String} {s : LockSys} (p0 : String)
    (h : LockInv cwd s) : LockInv cwd (wakeNext s p0) := by
  intro p
  rw [wakeNext_normHolders, wakeNext_disk]
  exact h p

theorem inv_of_set_nonholding {cwd : String} {s : LockSys} {tid : Nat}
    {t t' : LockTask}
    (ht : s.tasks[tid]? = some t) (h1 : t.phase ≠ .holding) (h2 : t'.phase ≠ .holding)
    (lk : List String) (qs : List (String × List (Nat × Bool)))
    (h : LockInv cwd s) :
    LockInv cwd ⟨s.tasks.set tid t', lk, qs, s.disk⟩ := by
  intro p
  have hc : normHoldersCount cwd ⟨s.tasks.set tid t', lk, qs, s.disk⟩ p
      = normHoldersCount cwd s p := by
    unfold normHoldersCount
    exact countP_set_nonholding ht h1 h2 (fun x => resolvePath cwd x.path == p)
  rw [hc]
  exact h p

theorem lockStep_inv {cwd : String} {s : LockSys} (tid : Nat) (h : LockInv cwd s) :
    LockInv cwd (lockStep cwd s tid) := by
  cases ht : s.tasks[tid]? with
  | none =>
    have hstep : lockStep cwd s tid = s := by simp [lockStep, ht]
    rw [hstep]; exact h
  | some t =>
    cases hph : t.phase with
    | ready =>
      by_cases hl : t.path ∈ s.locks
      · have hstep : lockStep cwd s tid =
            { s with
              queues := setQueue s.queues t.path (queueFor s.queues t.path ++ [(tid, true)])
              tasks := s.tasks.set tid { t with phase := .queued } } := by
          simp [lockStep, ht, hph, hl]
        rw [hstep]
        exact inv_of_set_nonholding ht (by simp [hph]) (by simp) _ _ h
      · have hstep : lockStep cwd s tid =
            { s with
              locks := insertKey t.path s.locks
              tasks := s.tasks.set tid { t with phase := .locking 0 } } := by
          simp [lockStep, ht, hph, hl]
        rw [hstep]
        exact inv_of_set_nonholding ht (by simp [hph]) (by simp) _ _ h
    | queued =>
      have hstep : lockStep cwd s tid = s := by simp [lockStep, ht, hph]
      rw [hstep]; exact h
    | woken =>
      have hstep : lockStep cwd s tid =
          { s with
            locks := insertKey t.path s.locks
            tasks := s.tasks.set tid { t with phase := .locking 0 } } := by
        simp [lockStep, ht, hph]
      rw [hstep]
      exact inv_of_set_nonholding ht (by simp [hph]) (by simp) _ _ h
    | locking k =>
      by_cases hd : resolvePath cwd t.path ∈ s.disk
      · by_cases hk : k < 3
        · have hstep : lockStep cwd s tid =
              { s with tasks := s.tasks.set tid { t with phase := .locking (k + 1) } } := by
            simp [lockStep, ht, hph, hd, hk]
          rw [hstep]
          exact inv_of_set_nonholding ht (by simp [hph]) (by simp) _ _ h
        · have hstep : lockStep cwd s tid =
              wakeNext
                { s with
                  locks := s.locks.erase t.path
                  tasks := s.tasks.set tid { t with phase := .failedLock } } t.path := by
            simp [lockStep, ht, hph, hd, hk]
          rw [hstep]
          exact wakeNext_inv _ (inv_of_set_nonholding ht (by simp [hph]) (by simp) _ _ h)
      · have hstep : lockStep cwd s tid =
            { s with
              disk := resolvePath cwd t.path :: s.disk
              tasks := s.tasks.set tid { t with phase := .holding } } := by
          simp [lockStep, ht, hph, hd]
        rw [hstep]
        intro p
        have hc := countP_set_aux
          (fun x => x.phase == LockPhase.holding && resolvePath cwd x.path == p)
          s.tasks tid t { t with phase := .holding } ht
        simp only [holding_pred_false (show t.phase ≠ LockPhase.holding by simp [hph]),
          Bool.toNat_false, add_zero] at hc
        by_cases hp : resolvePath cwd t.path = p
        · have h0 : s.tasks.countP
              (fun x => x.phase == LockPhase.holding && resolvePath cwd x.path == p) = 0 := by
            by_contra hne
            exact hd (hp ▸ (h p).2 (by unfold normHoldersCount; omega))
          have hq : ((⟨t.path, LockPhase.holding⟩ : LockTask).phase == LockPhase.holding
              && resolvePath cwd (⟨t.path, LockPhase.holding⟩ : LockTask).path == p)
              = true := by
            simp [hp]
          simp only [hq, Bool.toNat_true] at hc
          unfold normHoldersCount
          simp only
          constructor
          · omega
          · intro _
            exact hp ▸ List.mem_cons_self (resolvePath cwd t.path) s.disk
        · have hq : ((⟨t.path, LockPhase.holding⟩ : LockTask).phase == LockPhase.holding
              && resolvePath cwd (⟨t.path, LockPhase.holding⟩ : LockTask).path == p)
              = false := by
            simp [hp]
          simp only [hq, Bool.toNat_false, add_zero] at hc
          unfold normHoldersCount
          simp only
          have h1 := (h p).1
          have h2 := (h p).2
          unfold normHoldersCount at h1 h2
          refine ⟨by omega, fun hge => List.mem_cons_of_mem _ (h2 (by omega))⟩
    | holding =>
      have hstep : lockStep cwd s tid =
          wakeNext
            { s with
              disk := s.disk.erase (resolvePath cwd t.path)
              locks := s.locks.erase t.path
              tasks := s.tasks.set tid { t with phase := .released } } t.path := by
        simp [lockStep, ht, hph]
      rw [hstep]
      intro p
      rw [wakeNext_normHolders, wakeNext_disk]
      have hc := countP_set_aux
        (fun x => x.phase == LockPhase.holding && resolvePath cwd x.path == p)
        s.tasks tid t { t with phase := .released } ht
      have hrel : ((⟨t.path, LockPhase.released⟩ : LockTask).phase == LockPhase.holding
          && resolvePath cwd (⟨t.path, LockPhase.released⟩ : LockTask).path == p)
          = false := by simp
      simp only [hrel, Bool.toNat_false, add_zero] at hc
      have h1 := (h p).1
      have h2 := (h p).2
      unfold normHoldersCount at h1 h2 ⊢
      simp only
      by_cases hp : resolvePath cwd t.path = p
      · have hq : (t.phase == LockPhase.holding && resolvePath cwd t.path == p)
            = true := by
          simp [hph, hp]
        simp only [hq, Bool.toNat_true] at hc
        refine ⟨by omega, fun hge => absurd hge (by omega)⟩
      · have hq : (t.phase == LockPhase.holding && resolvePath cwd t.path == p)
            = false := by
          simp [hp]
        simp only [hq, Bool.toNat_false, add_zero] at hc
        refine ⟨by omega, fun hge =>
          (List.mem_erase_of_ne (fun hpe => hp hpe.symm)).mpr (h2 (by omega))⟩
    | released =>
      have hstep : lockStep cwd s tid = s := by simp [lockStep, ht, hph]
      rw [hstep]; exact h
    | failedTimeout =>
      have hstep : lockStep cwd s tid = s := by simp [lockStep, ht, hph]
      rw [hstep]; exact h
    | failedLock =>
      have hstep : lockStep cwd s tid = s := by simp [lockStep, ht, hph]
      rw [hstep]; exact h

theorem lockTimeout_inv {cwd : String} {s : LockSys} (tid : Nat)
    (h : LockInv cwd s) : LockInv cwd (lockTimeout s tid) := by
  cases ht : s.tasks[tid]? with
  | none =>
    have hstep : lockTimeout s tid = s := by simp [lockTimeout, ht]
    rw [hstep]; exact h
  | some t =>
    cases hph : t.phase with
    | queued =>
      have hstep : lockTimeout s tid =
          { s with
            queues := setQueue s.queues t.path
              (timeoutRemove (queueFor s.queues t.path) (tid, false))
            tasks := s.tasks.set tid { t with phase := .failedTimeout } } := by
        simp [lockTimeout, ht, hph]
      rw [hstep]
      exact inv_of_set_nonholding ht (by simp [hph]) (by simp) _ _ h
    | ready =>
      have hstep : lockTimeout s tid = s := by simp [lockTimeout, ht, hph]
      rw [hstep]; exact h
    | woken =>
      have hstep : lockTimeout s tid = s := by simp [lockTimeout, ht, hph]
      rw [hstep]; exact h
    | locking k =>
      have hstep : lockTimeout s tid = s := by simp [lockTimeout, ht, hph]
      rw [hstep]; exact h
    | holding =>
      have hstep : lockTimeout s tid = s := by simp [lockTimeout, ht, hph]
      rw [hstep]; exact h
    | released =>
      have hstep : lockTimeout s tid = s := by simp [lockTimeout, ht, hph]
      rw [hstep]; exact h
    | failedTimeout =>
      have hstep : lockTimeout s tid = s := by simp [lockTimeout, ht, hph]
      rw [hstep]; exact h
    | failedLock =>
      have hstep : lockTimeout s tid = s := by simp [lockTimeout, ht, hph]
      rw [hstep]; exact h

theorem lockRun_inv {cwd : String} {s : LockSys} (h : LockInv cwd s) :
    ∀ sched, LockInv cwd (lockRun cwd s sched) := by
  intro sched
  induction sched generalizing s with
  | nil => exact h
  | cons a rest ih =>
    cases a with
    | run tid => exact ih (lockStep_inv tid h)
    | timeout tid => exact ih (lockTimeout_inv tid h)

theorem initLockSys_inv (cwd : String) (paths : List String) :
    LockInv cwd (initLockSys paths) := by
  intro p
  have h0 : normHoldersCount cwd (initLockSys paths) p = 0 := by
    unfold normHoldersCount initLockSys
    rw [List.countP_eq_zero]
    intro a ha
    simp only [List.mem_map] at ha
    obtain ⟨q, _, rfl⟩ := ha
    simp
  rw [h0]
  exact ⟨by omega, by omega⟩

/-- C3: at every instant, for every path — keyed by its normalized absolute
canonical form, so two different spellings of the same file count against
the same key — at most one caller holds the lock, and concurrent
acquisition attempts never yield more than one simultaneous holder, for
every working directory, every initial set of requested path spellings and
every schedule of task steps and timer firings. The in-memory Map keys stay
raw (src/atomic.ts lines 46, 69), but becoming a holder requires the
exclusive wx creation of the marker file path.lock (line 73), whose path
the operating system resolves against the working directory: the markers
of all spellings of one file are one physical file, so its exclusive
creation bounds the holders per resolved path by one. -/
theorem acquireLock_normalized_mutual_exclusion (cwd : String)
    (paths : List String) (sched : List LockAct) (p : String) :
    normHoldersCount cwd (lockRun cwd (initLockSys paths) sched) p ≤ 1 :=
  (lockRun_inv (initLockSys_inv cwd paths) sched p).1

/-- Concrete aliasing run matching a hand trace of the source: task 0
acquires and holds the spelling a while task 1 requests ./a of the same
file. Task 1 does not contend on the in-memory Map (different raw key,
so it is never enqueued), but each of its writeFile-wx attempts targets
the same physical marker file /w/a.lock and fails EEXIST; after the retry
budget of the withRetry on lines 72-74 it fails acquisition (lines 75-83)
without ever holding, and the holder count of the physical file /w/a
stays 1. -/
theorem aliased_spelling_blocked :
    ((lockRun "/w" (initLockSys ["a", "./a"])
        [.run 0, .run 0, .run 1, .run 1, .run 1, .run 1, .run 1]).tasks[1]?.map
        LockTask.phase = some .failedLock)
    ∧ (normHoldersCount "/w" (lockRun "/w" (initLockSys ["a", "./a"])
        [.run 0, .run 0, .run 1, .run 1, .run 1, .run 1, .run 1]) "/w/a" = 1) := by
  decide

/-- C4: on a lock-wait timeout the promise rejects with the Lock timeout
error (the task fails), but the waiter entry is NOT removed from the FIFO
queue: the handler on src/atomic.ts lines 49-53 computes
queue.indexOf(resolve), while line 59 pushed wrappedResolve, so the index is
always -1 and the splice never runs. Concretely: task 0 acquires p, task 1
enqueues on p, task 1's timeout fires; afterwards task 1 has failed with the
timeout error yet its entry (1, wrappedResolve) still sits in the queue,
contradicting the no-residual-entry part of the claim (and of spec
section 4.2 and section 8). -/
theorem lockTimeout_leaves_residual_entry :
    (queueFor (lockRun "/w" (initLockSys ["p", "p"])
        [.run 0, .run 0, .run 1, .timeout 1]).queues "p" = [(1, true)])
    ∧ ((lockRun "/w" (initLockSys ["p", "p"])
        [.run 0, .run 0, .run 1, .timeout 1]).tasks[1]?.map LockTask.phase
      = some .failedTimeout)
    ∧ ¬ (queueFor (lockRun "/w" (initLockSys ["p", "p"])
        [.run 0, .run 0, .run 1, .timeout 1]).queues "p" = []) := by
  decide

/-! ## AtomicFileOps: atomicWrite (src/atomic.ts lines 102-136)

atomicWrite is modelled on a flat filesystem (path string to optional file
content). The random hex suffix of the temp name is a caller-supplied
parameter. The body wrapped in withRetry (writeFile to the temp path, then
the rename; the non-win32 branch of line 120 is modelled) is represented by
the net effect of its final attempt, described by an injected outcome:
success, failure of the temp write, or failure of the rename; the retry
schedule itself is verified separately on the withRetry model. The lock is
acquired uncontended (single caller; contention is the PathLock model's
concern), and acquire/release are recorded as events. -/

/-- Flat filesystem update. -/
def fsSet (fs : String → Option String) (p : String) (v : Option String) :
    String → Option String :=
  fun q => if q = p then v else fs q

/-- Rename src onto dst (posix fs.rename with an existing target): dst
receives the contents of src and src disappears. -/
def fsRename (fs : String → Option String) (src dst : String) :
    String → Option String :=
  fsSet (fsSet fs dst (fs src)) src none

/-- Mirrors the temp name of src/atomic.ts line 108:
join(dir, dot + basename + dot + hex + .tmp). On the flat filesystem the
dir/basename split is identity, so the name is dot ++ path ++ dot ++ hex
++ .tmp. -/
def tempName (p hex : String) : String := "." ++ p ++ "." ++ hex ++ ".tmp"

/-- Lock events emitted by atomicWrite. -/
inductive WEvent where
| acquire (p : String)
| release (p : String)
deriving DecidableEq

/-- State threaded through atomicWrite: the filesystem and the lock event
trace. -/
structure WState where
  fs : String → Option String
  events : List WEvent

/-- Point at which the final attempt of the guarded block fails, if any. -/
inductive WriteFail where
| atWrite
| atRename
deriving DecidableEq

/-- Mirrors atomicWrite (src/atomic.ts lines 102-136): compute the temp
name; mkdir of the parent (no-op on the flat filesystem); acquire the lock
(line 114); run the guarded block (write temp, rename temp onto target,
lines 117-128) whose final-attempt outcome is injected; then the finally
block (lines 129-135): unlink the temp file with errors swallowed, and
release the lock. -/
def atomicWrite (targetPath hex content : String) (outcome : Option WriteFail)
    (st : WState) : WState :=
  let temp := tempName targetPath hex
  let ev1 := st.events ++ [WEvent.acquire targetPath]
  let fs1 :=
    match outcome with
    | none => fsRename (fsSet st.fs temp (some content)) temp targetPath
    | some .atWrite => st.fs
    | some .atRename => fsSet st.fs temp (some content)
  let fs2 := fsSet fs1 temp none
  ⟨fs2, ev1 ++ [WEvent.release targetPath]⟩

theorem length_tempName (p hex : String) :
    (tempName p hex).length = p.length + hex.length + 6 := by
  have h1 : ".".length = 1 := rfl
  have h2 : ".tmp".length = 4 := rfl
  simp [tempName, String.length_append, h1, h2]
  omega

theorem tempName_ne (p hex : String) : tempName p hex ≠ p := by
  intro h
  have := congrArg String.length h
  rw [length_tempName] at this
  omega

/-- C6: a successful atomicWrite(P, C) makes a read of P yield exactly C;
and on every exit path (success, temp-write failure, rename failure) the
random-suffixed sibling temporary file no longer exists afterwards and the
path lock was acquired and then released exactly once (the event trace
gains exactly the pair acquire P, release P). -/
theorem atomicWrite_spec (targetPath hex content : String)
    (outcome : Option WriteFail) (st : WState) :
    ((atomicWrite targetPath hex content outcome st).fs (tempName targetPath hex) = none)
    ∧ ((atomicWrite targetPath hex content outcome st).events
        = st.events ++ [WEvent.acquire targetPath, WEvent.release targetPath])
    ∧ (outcome = none →
        (atomicWrite targetPath hex content none st).fs targetPath = some content) := by
  refine ⟨?_, ?_, ?_⟩
  · simp [atomicWrite, fsSet]
  · simp [atomicWrite]
  · intro _
    have hne := tempName_ne targetPath hex
    simp [atomicWrite, fsRename, fsSet, hne, Ne.symm hne]

/-- Witness for atomicWrite_spec at concrete inputs. -/
theorem atomicWrite_spec_witness :
    ((atomicWrite "f.txt" "ab12" "hello" none ⟨fun _ => none, []⟩).fs "f.txt"
      = some "hello")
    ∧ ((atomicWrite "f.txt" "ab12" "hello" (some .atRename) ⟨fun _ => none, []⟩).fs
        (tempName "f.txt" "ab12") = none) := by
  have h1 := atomicWrite_spec "f.txt" "ab12" "hello" none ⟨fun _ => none, []⟩
  have h2 := atomicWrite_spec "f.txt" "ab12" "hello" (some .atRename) ⟨fun _ => none, []⟩
  exact ⟨h1.2.2 rfl, h2.1⟩

/-! ## BackupVerifier: verifyBackup, getAllFiles, hashFile
(src/files.ts lines 26-62, 80-100)

Directory trees are modelled as a mutual inductive (an entry is a file with
byte contents or a directory holding a named entry list). The SHA-256
digest of hashFile is an abstract function parameter; the claims about
byte-level differences additionally assume it is injective (the idealized
reading of a cryptographic fingerprint). Relative paths (joined with the
path separator in the source) are modelled as component lists, on which the
join is injective exactly as it is on slash-free file names. The embedded
functions live in the namespace files, mirroring the module src/files.ts. -/

mutual
inductive FEntry where
| file : List Nat → FEntry
| dir : FEList → FEntry
inductive FEList where
| nil : FEList
| cons : String → FEntry → FEList → FEList
end

/-- Names of the immediate children of a directory (readdir order). -/
def namesOf : FEList → List String
  | .nil => []
  | .cons n _ rest => n :: namesOf rest

mutual
/-- Contribution of one directory entry to getAllFiles: the traverse body of
src/files.ts lines 86-95 for a single dirent (a file pushes its relative
path, a directory recurses with the extended prefix). -/
def entryFiles (pre : List String) (name : String) : FEntry → List (List String)
  | .file _ => [pre ++ [name]]
  | .dir es => listFiles (pre ++ [name]) es
/-- The traverse loop of src/files.ts lines 83-96 over an entry list. -/
def listFiles (pre : List String) : FEList → List (List String)
  | .nil => []
  | .cons n e rest => entryFiles pre n e ++ listFiles pre rest
end

namespace files

/-- Mirrors getAllFiles (src/files.ts lines 80-100): readdir of a regular
file fails with ENOTDIR; on a directory it returns the recursively
enumerated relative file paths. -/
def getAllFiles : FEntry → Except String (List (List String))
  | .file _ => .error "ENOTDIR"
  | .dir es => .ok (listFiles [] es)

/-- Mirrors hashFile (src/files.ts lines 26-31): the streaming SHA-256 of a
regular file, abstracted as the digest parameter; createReadStream on a
directory fails with EISDIR. -/
def hashFile (digest : List Nat → List Nat) : FEntry → Except String (List Nat)
  | .file c => .ok (digest c)
  | .dir _ => .error "EISDIR"

/-- Mirrors verifyBackup (src/files.ts lines 33-62): stat the original; for
a directory enumerate both sides and fail unless the lengths match and
every original path occurs among the backup paths (lines 40-41); for a
regular file compare the two content digests (lines 50-61). Any await
failure propagates. -/
def verifyBackup (digest : List Nat → List Nat) (orig bak : FEntry) :
    Except String Unit :=
  match orig with
  | .dir _ =>
    match getAllFiles orig with
    | .error e => .error e
    | .ok originalFiles =>
      match getAllFiles bak with
      | .error e => .error e
      | .ok backupFiles =>
        if originalFiles.length != backupFiles.length
            || !(originalFiles.all (fun f => backupFiles.contains f)) then
          .error "CRITICAL: Backup verification failed - directory structure mismatch"
        else .ok ()
  | .file _ =>
    match hashFile digest orig with
    | .error e => .error e
    | .ok originalHash =>
      match hashFile digest bak with
      | .error e => .error e
      | .ok backupHash =>
        if originalHash != backupHash then
          .error "CRITICAL: Backup verification failed - SHA256 mismatch detected"
        else .ok ()

end files

/-- Whether an Except value is an error. -/
def exceptFails {ε α : Type} : Except ε α → Bool
  | .ok _ => false
  | .error _ => true

mutual
/-- Well-formed directory data: sibling names are distinct, as delivered by
readdir on a real filesystem. -/
def wfEntry : FEntry → Bool
  | .file _ => true
  | .dir es => wfList es
def wfList : FEList → Bool
  | .nil => true
  | .cons n e rest => !((namesOf rest).contains n) && wfEntry e && wfList rest
end

mutual
theorem entryFiles_shape (pre : List String) (name : String) (e : FEntry) :
    ∀ q ∈ entryFiles pre name e, ∃ suf, q = pre ++ name :: suf := by
  cases e with
  | file c =>
    intro q hq
    simp only [entryFiles, List.mem_singleton] at hq
    exact ⟨[], by simp [hq]⟩
  | dir es =>
    intro q hq
    simp only [entryFiles] at hq
    obtain ⟨n2, suf, _, hshape⟩ := listFiles_shape (pre ++ [name]) es q hq
    exact ⟨n2 :: suf, by simp [hshape]⟩
theorem listFiles_shape (pre : List String) (es : FEList) :
    ∀ q ∈ listFiles pre es, ∃ n suf, n ∈ namesOf es ∧ q = pre ++ n :: suf := by
  cases es with
  | nil => intro q hq; simp [listFiles] at hq
  | cons n e rest =>
    intro q hq
    simp only [listFiles, List.mem_append] at hq
    cases hq with
    | inl h =>
      obtain ⟨suf, hs⟩ := entryFiles_shape pre n e q h
      exact ⟨n, suf, by simp [namesOf], hs⟩
    | inr h =>
      obtain ⟨n2, suf, hn, hs⟩ := listFiles_shape pre rest q h
      exact ⟨n2, suf, by simp [namesOf, hn], hs⟩
end

mutual
theorem entryFiles_nodup (pre : List String) (name : String) (e : FEntry)
    (hw : wfEntry e = true) : (entryFiles pre name e).Nodup := by
  cases e with
  | file c => simp [entryFiles]
  | dir es =>
    simp only [entryFiles]
    exact listFiles_nodup (pre ++ [name]) es (by simpa [wfEntry] using hw)
theorem listFiles_nodup (pre : List String) (es : FEList)
    (hw : wfList es = true) : (listFiles pre es).Nodup := by
  cases es with
  | nil => simp [listFiles]
  | cons n e rest =>
    simp only [wfList, Bool.and_eq_true, Bool.not_eq_true'] at hw
    obtain ⟨⟨hn, hwe⟩, hwr⟩ := hw
    simp only [listFiles]
    refine List.Nodup.append (entryFiles_nodup pre n e hwe)
      (listFiles_nodup pre rest hwr) ?_
    intro q hq1 hq2
    obtain ⟨suf, hs1⟩ := entryFiles_shape pre n e q hq1
    obtain ⟨n2, suf2, hn2, hs2⟩ := listFiles_shape pre rest q hq2
    rw [hs1] at hs2
    have hcons := List.append_cancel_left hs2
    have hne : n = n2 := (List.cons.injEq _ _ _ _ ▸ hcons).1
    rw [hne] at hn
    have hmem : ¬ (n2 ∈ namesOf rest) := by simpa using hn
    exact hmem hn2
end

theorem dirCheck_iff (o b : List (List String)) (ho : o.Nodup) (hb : b.Nodup) :
    ((o.length != b.length || !(o.all (fun f => b.contains f))) = false)
      ↔ o.toFinset = b.toFinset := by
  have hprop : ((o.length != b.length || !(o.all (fun f => b.contains f))) = false)
      ↔ (o.length = b.length ∧ ∀ x ∈ o, x ∈ b) := by simp
  rw [hprop]
  constructor
  · rintro ⟨hlen, hall⟩
    have hsub : o.toFinset ⊆ b.toFinset := fun x hx =>
      List.mem_toFinset.mpr (hall x (List.mem_toFinset.mp hx))
    refine Finset.eq_of_subset_of_card_le hsub ?_
    rw [List.toFinset_card_of_nodup ho, List.toFinset_card_of_nodup hb, hlen]
  · intro heq
    refine ⟨?_, fun x hx => List.mem_toFinset.mp (heq ▸ List.mem_toFinset.mpr hx)⟩
    rw [← List.toFinset_card_of_nodup ho, ← List.toFinset_card_of_nodup hb, heq]

/-- C7: for a regular-file original, verifyBackup fails if and only if the
SHA-256 content fingerprints of original and backup differ, hence (for an
injective digest) whenever the contents differ by even one byte; the
mismatch raises the fatal CRITICAL integrity error, which no call site
routes through withRetry. For a directory original (against a directory
backup with well-formed sibling names), verification succeeds if and only
if the recursively enumerated sets of relative file paths agree — file
contents are not compared. -/
theorem verifyBackup_spec (digest : List Nat → List Nat)
    (hinj : Function.Injective digest) :
    (∀ c1 c2 : List Nat,
      ((exceptFails (files.verifyBackup digest (.file c1) (.file c2)) = true)
        ↔ digest c1 ≠ digest c2)
      ∧ ((exceptFails (files.verifyBackup digest (.file c1) (.file c2)) = true)
        ↔ c1 ≠ c2))
    ∧ (∀ es1 es2 : FEList, wfList es1 = true → wfList es2 = true →
      ((exceptFails (files.verifyBackup digest (.dir es1) (.dir es2)) = false)
        ↔ (listFiles [] es1).toFinset = (listFiles [] es2).toFinset)) := by
  constructor
  · intro c1 c2
    have hbase : (exceptFails (files.verifyBackup digest (.file c1) (.file c2)) = true)
        ↔ digest c1 ≠ digest c2 := by
      simp only [files.verifyBackup, files.hashFile]
      by_cases h : digest c1 = digest c2
      · simp [h, exceptFails]
      · simp [h, exceptFails, bne_iff_ne]
    exact ⟨hbase, hbase.trans hinj.ne_iff⟩
  · intro es1 es2 hw1 hw2
    have h1 := listFiles_nodup [] es1 hw1
    have h2 := listFiles_nodup [] es2 hw2
    have hd := dirCheck_iff (listFiles [] es1) (listFiles [] es2) h1 h2
    rw [← hd]
    cases hc : (((listFiles [] es1).length != (listFiles [] es2).length)
        || !((listFiles [] es1).all (fun f => (listFiles [] es2).contains f))) with
    | false =>
      simp only [files.verifyBackup, files.getAllFiles, hc, Bool.false_eq_true,
        if_false, exceptFails]
    | true =>
      simp only [files.verifyBackup, files.getAllFiles, hc, eq_self_iff_true,
        if_true, exceptFails]

/-- Witness for verifyBackup_spec at concrete inputs: with the identity
digest, the files [1] and [2] fail verification, while two directories
whose single file a has different contents ([0] versus [9]) verify
successfully (contents are not compared). -/
theorem verifyBackup_spec_witness :
    exceptFails (files.verifyBackup (fun l => l) (.file [1]) (.file [2])) = true
    ∧ exceptFails (files.verifyBackup (fun l => l)
        (.dir (.cons "a" (.file [0]) .nil))
        (.dir (.cons "a" (.file [9]) .nil))) = false := by
  have h := verifyBackup_spec (fun l => l) (fun a b hab => hab)
  constructor
  · exact (h.1 [1] [2]).2.mpr (by decide)
  · exact (h.2 (.cons "a" (.file [0]) .nil) (.cons "a" (.file [9]) .nil)
      rfl rfl).mpr (by decide)

/-! ## TransactionLog (src/atomic.ts lines 228-282)

Paths are split into the user namespace (targets passed by callers) and the
backup namespace (opaque names under the per-transaction backup root, a
fresh temp directory whose entries are numbered here in place of the random
8-byte hex of line 244). The filesystem is flat: each path maps to an
optional content string (for a directory target the string stands for the
whole tree copied by atomicCopy). Each TransactionLog method is embedded as
its net effect on the filesystem, the operations array, and an event trace
recording backup copies, fidelity verifications and destructive mutations
(TransactionLog itself never emits a verification event; verifyBackup is
only called by the callers in src/files.ts after their own tx.copy
backups). -/

/-- A path: a caller-visible target or slot n of the backup root. -/
inductive FPath where
| user : String → FPath
| bk : Nat → FPath
deriving DecidableEq

/-- Record kind of the operations array (src/atomic.ts line 229). -/
inductive TxKind where
| backup
| write
| copy
deriving DecidableEq

/-- One record of the operations array: type, path, optional backup path. -/
structure TxOp where
  kind : TxKind
  path : FPath
  backupPath : Option FPath
deriving DecidableEq

/-- Observable actions of a transaction. -/
inductive TxEvent where
| backupCopy : FPath → FPath → TxEvent
| verifyFidelity : FPath → FPath → TxEvent
| mutate : FPath → TxEvent
deriving DecidableEq

/-- Whether an event is a fidelity verification. -/
def TxEvent.isVerify : TxEvent → Bool
  | .verifyFidelity _ _ => true
  | _ => false

/-- State of one TransactionLog: the filesystem, the operations array, the
next free backup-root slot, and the event trace. -/
structure TxState where
  fs : FPath → Option String
  ops : List TxOp
  fresh : Nat
  events : List TxEvent

/-- Flat filesystem update on FPath. -/
def fpSet (fs : FPath → Option String) (p : FPath) (v : Option String) :
    FPath → Option String :=
  fun q => if q = p then v else fs q

namespace TransactionLog

/-- Mirrors TransactionLog.backup (src/atomic.ts lines 240-247): if the
path does not exist, return unchanged; otherwise atomicCopy it to a fresh
opaque slot of the backup root and push a backup record. -/
def backup (p : FPath) (st : TxState) : TxState :=
  match st.fs p with
  | none => st
  | some v =>
    let bkp := FPath.bk st.fresh
    { fs := fpSet st.fs bkp (some v)
      ops := st.ops ++ [⟨.backup, p, some bkp⟩]
      fresh := st.fresh + 1
      events := st.events ++ [.backupCopy p bkp] }

/-- Mirrors TransactionLog.write (src/atomic.ts lines 249-253): backup the
target, atomicWrite the content, push a write record. -/
def write (p : FPath) (c : String) (st : TxState) : TxState :=
  let st1 := backup p st
  { st1 with
    fs := fpSet st1.fs p (some c)
    ops := st1.ops ++ [⟨.write, p, none⟩]
    events := st1.events ++ [.mutate p] }

/-- Mirrors TransactionLog.copy (src/atomic.ts lines 255-259): backup the
target, atomicCopy source onto it (failing like fs.stat if the source does
not exist), push a copy record. -/
def copy (src tgt : FPath) (st : TxState) : Option TxState :=
  let st1 := backup tgt st
  match st1.fs src with
  | none => none
  | some v =>
    some
      { st1 with
        fs := fpSet st1.fs tgt (some v)
        ops := st1.ops ++ [⟨.copy, tgt, none⟩]
        events := st1.events ++ [.mutate tgt] }

/-- Effect on the filesystem of one loop iteration of rollback
(src/atomic.ts lines 262-274): a backup record atomically moves the backup
back onto the original path (a failed move — the backup slot being absent —
is caught and logged, leaving the filesystem unchanged); a write or copy
record recursively removes its path; a backup record with no backup path
matches neither branch. -/
def rollbackStepFS (fs : FPath → Option String) (op : TxOp) :
    FPath → Option String :=
  match op.kind, op.backupPath with
  | .backup, some b =>
    match fs b with
    | none => fs
    | some v => fpSet (fpSet fs op.path (some v)) b none
  | .backup, none => fs
  | .write, _ => fpSet fs op.path none
  | .copy, _ => fpSet fs op.path none

/-- Mirrors TransactionLog.rollback (src/atomic.ts lines 261-275): the loop
iterates this.operations.reverse(), which reverses the array IN PLACE and
returns it, so the replayed order is the reverse of the stored order and
the stored array itself ends up reversed. -/
def rollback (st : TxState) : TxState :=
  { st with
    fs := st.ops.reverse.foldl rollbackStepFS st.fs
    ops := st.ops.reverse }

/-- The list the rollback loop iterates: this.operations.reverse(). -/
def rollbackIterationOrder (st : TxState) : List TxOp :=
  st.ops.reverse

end TransactionLog

/-- One caller request against a transaction (targets and copy sources are
caller-visible paths). -/
inductive TxReq where
| write : String → String → TxReq
| copy : String → String → TxReq
deriving DecidableEq

/-- Run one request. -/
def runReq (st : TxState) : TxReq → Option TxState
  | .write p c => some (TransactionLog.write (.user p) c st)
  | .copy s p => TransactionLog.copy (.user s) (.user p) st

/-- Run a list of requests, stopping at the first failure. -/
def runReqs (st : TxState) : List TxReq → Option TxState
  | [] => some st
  | r :: rs =>
    match runReq st r with
    | none => none
    | some st2 => runReqs st2 rs

/-- Mirrors constructor plus init (src/atomic.ts lines 232-238): the user
filesystem as found on disk, and a freshly created empty backup root. -/
def txInit (fs0 : String → Option String) : TxState :=
  { fs := fun p => match p with | .user s => fs0 s | .bk _ => none
    ops := []
    fresh := 0
    events := [] }

/-- Filesystem resulting from rolling back a transaction state. -/
def rbFS (st : TxState) : FPath → Option String :=
  st.ops.reverse.foldl TransactionLog.rollbackStepFS st.fs

/-- Induction invariant for rollback correctness: replaying the recorded
operations in reverse restores the initial user filesystem, and every
backup-root slot at or above the fresh counter is empty. -/
def TxInv (fs0 : String → Option String) (st : TxState) : Prop :=
  (∀ s, rbFS st (.user s) = fs0 s) ∧ (∀ m, st.fresh ≤ m → st.fs (.bk m) = none)

/-- Rolling one backup-then-mutate block back restores the filesystem it
started from. -/
theorem rollback_block (fs : FPath → Option String) (p bkp : FPath)
    (v c : String) (hpb : p ≠ bkp) (hfs : fs p = some v) (hbk : fs bkp = none)
    (k : TxKind) (hk : k ≠ .backup) :
    TransactionLog.rollbackStepFS
      (TransactionLog.rollbackStepFS (fpSet (fpSet fs bkp (some v)) p (some c)) ⟨k, p, none⟩)
      ⟨.backup, p, some bkp⟩ = fs := by
  have hstep1 : TransactionLog.rollbackStepFS (fpSet (fpSet fs bkp (some v)) p (some c)) ⟨k, p, none⟩
      = fpSet (fpSet (fpSet fs bkp (some v)) p (some c)) p none := by
    cases k with
    | backup => exact absurd rfl hk
    | write => rfl
    | copy => rfl
  rw [hstep1]
  have hread : (fpSet (fpSet (fpSet fs bkp (some v)) p (some c)) p none) bkp = some v := by
    simp [fpSet, Ne.symm hpb]
  simp only [TransactionLog.rollbackStepFS, hread]
  funext q
  by_cases hqb : q = bkp
  · subst hqb; simp [fpSet, hbk]
  · by_cases hqp : q = p
    · subst hqp; simp [fpSet, hqb, hfs]
    · simp [fpSet, hqb, hqp]

/-- Rolling back a bare mutate record of a previously absent path removes
it again. -/
theorem rollback_write_only (fs : FPath → Option String) (p : FPath)
    (c : String) (hfs : fs p = none) (k : TxKind) (hk : k ≠ .backup) :
    TransactionLog.rollbackStepFS (fpSet fs p (some c)) ⟨k, p, none⟩ = fs := by
  have hstep1 : TransactionLog.rollbackStepFS (fpSet fs p (some c)) ⟨k, p, none⟩
      = fpSet (fpSet fs p (some c)) p none := by
    cases k with
    | backup => exact absurd rfl hk
    | write => rfl
    | copy => rfl
  rw [hstep1]
  funext q
  by_cases hqp : q = p
  · subst hqp; simp [fpSet, hfs]
  · simp [fpSet, hqp]

theorem TxInv_write {fs0 : String → Option String} {st : TxState}
    (hinv : TxInv fs0 st) (p : String) (c : String) :
    TxInv fs0 (TransactionLog.write (.user p) c st) := by
  cases hfs : st.fs (.user p) with
  | some v =>
    constructor
    · intro s
      show rbFS (TransactionLog.write (.user p) c st) (.user s) = fs0 s
      unfold rbFS
      simp only [TransactionLog.write, TransactionLog.backup, hfs]
      rw [List.append_assoc, List.reverse_append, List.reverse_append]
      simp only [List.reverse_cons, List.reverse_nil, List.nil_append,
        List.cons_append, List.foldl_cons, List.append_nil]
      rw [rollback_block st.fs (.user p) (.bk st.fresh) v c (by simp) hfs
        (hinv.2 st.fresh (le_refl _)) .write (by intro hcc; cases hcc)]
      exact hinv.1 s
    · intro m hm
      simp only [TransactionLog.write, TransactionLog.backup, hfs] at hm ⊢
      have hm2 : st.fresh + 1 ≤ m := hm
      have hne1 : (FPath.bk m) ≠ (.user p) := by simp
      have hne2 : (FPath.bk m) ≠ (.bk st.fresh) := by
        simp only [ne_eq, FPath.bk.injEq]
        omega
      simp only [fpSet, if_neg hne1, if_neg hne2]
      exact hinv.2 m (by omega)
  | none =>
    constructor
    · intro s
      show rbFS (TransactionLog.write (.user p) c st) (.user s) = fs0 s
      unfold rbFS
      simp only [TransactionLog.write, TransactionLog.backup, hfs]
      rw [List.reverse_append]
      simp only [List.reverse_cons, List.reverse_nil, List.nil_append,
        List.cons_append, List.foldl_cons]
      rw [rollback_write_only st.fs (.user p) c hfs .write (by intro hcc; cases hcc)]
      exact hinv.1 s
    · intro m hm
      simp only [TransactionLog.write, TransactionLog.backup, hfs] at hm ⊢
      have hne1 : (FPath.bk m) ≠ (.user p) := by simp
      simp only [fpSet, if_neg hne1]
      exact hinv.2 m hm

theorem copy_some_elim {src : FPath} {p : String} {st st' : TxState}
    (h : TransactionLog.copy src (.user p) st = some st') :
    ∃ v2, (TransactionLog.backup (.user p) st).fs src = some v2 ∧
      st' = { TransactionLog.backup (.user p) st with
              fs := fpSet (TransactionLog.backup (.user p) st).fs (.user p) (some v2)
              ops := (TransactionLog.backup (.user p) st).ops ++ [⟨.copy, .user p, none⟩]
              events := (TransactionLog.backup (.user p) st).events
                ++ [.mutate (.user p)] } := by
  simp only [TransactionLog.copy] at h
  cases hsrc : (TransactionLog.backup (.user p) st).fs src with
  | none =>
    simp only [hsrc] at h
    exact Option.noConfusion h
  | some v2 =>
    simp only [hsrc, Option.some.injEq] at h
    exact ⟨v2, rfl, h.symm⟩

theorem TxInv_copy {fs0 : String → Option String} {st st' : TxState}
    (hinv : TxInv fs0 st) (src : FPath) (p : String)
    (h : TransactionLog.copy src (.user p) st = some st') :
    TxInv fs0 st' := by
  obtain ⟨v2, hsrc, hst⟩ := copy_some_elim h
  subst hst
  cases hfs : st.fs (.user p) with
  | some v =>
    constructor
    · intro s
      show rbFS _ (.user s) = fs0 s
      unfold rbFS
      simp only [TransactionLog.backup, hfs]
      rw [List.append_assoc, List.reverse_append, List.reverse_append]
      simp only [List.reverse_cons, List.reverse_nil, List.nil_append,
        List.cons_append, List.foldl_cons, List.append_nil]
      rw [rollback_block st.fs (.user p) (.bk st.fresh) v v2 (by simp) hfs
        (hinv.2 st.fresh (le_refl _)) .copy (by intro hcc; cases hcc)]
      exact hinv.1 s
    · intro m hm
      simp only [TransactionLog.backup, hfs] at hm ⊢
      have hm2 : st.fresh + 1 ≤ m := hm
      have hne1 : (FPath.bk m) ≠ (.user p) := by simp
      have hne2 : (FPath.bk m) ≠ (.bk st.fresh) := by
        simp only [ne_eq, FPath.bk.injEq]
        omega
      simp only [fpSet, if_neg hne1, if_neg hne2]
      exact hinv.2 m (by omega)
  | none =>
    constructor
    · intro s
      show rbFS _ (.user s) = fs0 s
      unfold rbFS
      simp only [TransactionLog.backup, hfs]
      rw [List.reverse_append]
      simp only [List.reverse_cons, List.reverse_nil, List.nil_append,
        List.cons_append, List.foldl_cons]
      rw [rollback_write_only st.fs (.user p) v2 hfs .copy (by intro hcc; cases hcc)]
      exact hinv.1 s
    · intro m hm
      simp only [TransactionLog.backup, hfs] at hm ⊢
      have hne1 : (FPath.bk m) ≠ (.user p) := by simp
      simp only [fpSet, if_neg hne1]
      exact hinv.2 m hm

theorem TxInv_runReqs {fs0 : String → Option String} :
    ∀ (reqs : List TxReq) (st st' : TxState), TxInv fs0 st →
      runReqs st reqs = some st' → TxInv fs0 st' := by
  intro reqs
  induction reqs with
  | nil =>
    intro st st' hinv h
    simp only [runReqs, Option.some.injEq] at h
    exact h ▸ hinv
  | cons r rs ih =>
    intro st st' hinv h
    cases r with
    | write q c =>
      simp only [runReqs, runReq] at h
      exact ih _ _ (TxInv_write hinv q c) h
    | copy s q =>
      simp only [runReqs, runReq] at h
      cases hc : TransactionLog.copy (.user s) (.user q) st with
      | none => rw [hc] at h; cases h
      | some st2 =>
        rw [hc] at h
        exact ih _ _ (TxInv_copy hinv (.user s) q hc) h

theorem TxInv_init (fs0 : String → Option String) : TxInv fs0 (txInit fs0) :=
  ⟨fun _ => rfl, fun _ _ => rfl⟩

/-- C1: after a sequence of successful write/copy operations in a
transaction followed by rollback, every target path that existed before the
transaction reads back its exact pre-transaction content, and every target
path that did not exist before no longer exists after rollback (in fact the
whole user filesystem equals its pre-transaction state). -/
theorem rollback_restores_pretransaction (fs0 : String → Option String)
    (reqs : List TxReq) (st' : TxState)
    (h : runReqs (txInit fs0) reqs = some st') (s : String) :
    ((∃ v, fs0 s = some v) →
      (TransactionLog.rollback st').fs (.user s) = fs0 s)
    ∧ (fs0 s = none → (TransactionLog.rollback st').fs (.user s) = none) := by
  have hinv := TxInv_runReqs reqs (txInit fs0) st' (TxInv_init fs0) h
  have hr : (TransactionLog.rollback st').fs (.user s) = fs0 s := hinv.1 s
  exact ⟨fun _ => hr, fun h0 => by rw [hr, h0]⟩

/-- Initial filesystem of the concrete rollback scenario: only a.txt
exists, holding old. -/
def scenarioFs : String → Option String :=
  fun s => if s = "a.txt" then some "old" else none

/-- Transaction of the concrete scenario: overwrite the pre-existing a.txt
and create a fresh b.txt. -/
def scenarioSt : TxState :=
  TransactionLog.write (.user "b.txt") "x"
    (TransactionLog.write (.user "a.txt") "new" (txInit scenarioFs))

/-- Witness for rollback_restores_pretransaction: in the scenario, rollback
restores a.txt to old and removes the newly created b.txt. -/
theorem rollback_restores_pretransaction_witness :
    (TransactionLog.rollback scenarioSt).fs (.user "a.txt") = some "old"
    ∧ (TransactionLog.rollback scenarioSt).fs (.user "b.txt") = none := by
  have h := rollback_restores_pretransaction scenarioFs
    [.write "a.txt" "new", .write "b.txt" "x"] scenarioSt rfl
  constructor
  · exact ((h "a.txt").1 ⟨"old", rfl⟩).trans rfl
  · exact (h "b.txt").2 rfl

/-- C2 counterexample: the claim requires that when write hits an existing
path, the backup copy is verified for fidelity before the destructive
mutation proceeds. TransactionLog.write (src/atomic.ts lines 249-253) calls
backup (an atomicCopy, line 245) and then atomicWrite, but never invokes
verifyBackup: at the concrete input (a.txt exists with content old), the
event trace of write contains the backup copy and the mutation yet no
fidelity-verification event at all (verifyBackup is invoked only by the
callers in src/files.ts after their own explicit tx.copy backups, never
for the opaque backups that write/copy take under the backup root). -/
theorem write_skips_verification :
    ((txInit scenarioFs).fs (.user "a.txt") = some "old")
    ∧ ((TransactionLog.write (.user "a.txt") "new" (txInit scenarioFs)).events
        = [.backupCopy (.user "a.txt") (.bk 0), .mutate (.user "a.txt")])
    ∧ ((TransactionLog.write (.user "a.txt") "new" (txInit scenarioFs)).events.any
        TxEvent.isVerify = false) := by
  refine ⟨rfl, ?_, ?_⟩ <;> rfl

/-- C2 (amended): for every write(path, content) or copy(source, path)
where path already exists, the existing path is first copied to an
opaque-named location under the backup root, a Backup record is appended
before the Write/Copy record, and only then is the destructive mutation
performed — but no fidelity verification of that backup is run at any point
of write/copy (the trace gains no verification event). -/
theorem write_backup_before_mutation (st : TxState) (p : String) (c v : String)
    (h : st.fs (.user p) = some v) :
    ((TransactionLog.write (.user p) c st).ops
      = st.ops ++ [⟨.backup, .user p, some (.bk st.fresh)⟩, ⟨.write, .user p, none⟩])
    ∧ ((TransactionLog.write (.user p) c st).fs (.bk st.fresh) = some v)
    ∧ ((TransactionLog.write (.user p) c st).fs (.user p) = some c)
    ∧ ((TransactionLog.write (.user p) c st).events
      = st.events ++ [.backupCopy (.user p) (.bk st.fresh), .mutate (.user p)])
    ∧ ((TransactionLog.write (.user p) c st).events.any TxEvent.isVerify
      = st.events.any TxEvent.isVerify)
    ∧ (∀ (src : FPath) (st' : TxState),
        TransactionLog.copy src (.user p) st = some st' →
        st'.ops = st.ops
          ++ [⟨.backup, .user p, some (.bk st.fresh)⟩, ⟨.copy, .user p, none⟩]
        ∧ st'.events.any TxEvent.isVerify = st.events.any TxEvent.isVerify) := by
  refine ⟨?_, ?_, ?_, ?_, ?_, ?_⟩
  · simp [TransactionLog.write, TransactionLog.backup, h]
  · simp [TransactionLog.write, TransactionLog.backup, h, fpSet]
  · simp [TransactionLog.write, TransactionLog.backup, h, fpSet]
  · simp [TransactionLog.write, TransactionLog.backup, h]
  · simp [TransactionLog.write, TransactionLog.backup, h, TxEvent.isVerify]
  · intro src st' hc
    obtain ⟨v2, hsrc, hst⟩ := copy_some_elim hc
    subst hst
    constructor
    · simp [TransactionLog.backup, h]
    · simp [TransactionLog.backup, h, TxEvent.isVerify]

/-- Witness for write_backup_before_mutation at the concrete scenario
state. -/
theorem write_backup_before_mutation_witness :
    (TransactionLog.write (.user "a.txt") "new" (txInit scenarioFs)).ops
      = [⟨.backup, .user "a.txt", some (.bk 0)⟩, ⟨.write, .user "a.txt", none⟩]
    ∧ (TransactionLog.write (.user "a.txt") "new" (txInit scenarioFs)).fs
        (.bk 0) = some "old" := by
  have h := write_backup_before_mutation (txInit scenarioFs) "a.txt" "new" "old" rfl
  exact ⟨h.1, h.2.1⟩

/-- C9: backing up a path that does not exist on disk is a no-op (nothing
copied, no record appended, backup root untouched), so a subsequent write
of that path records only a Write record, which is exactly what makes
rollback delete the path as newly created. -/
theorem backup_missing_is_noop (st : TxState) (p : String) (c : String)
    (h : st.fs (.user p) = none) (fs0 : String → Option String)
    (h0 : fs0 p = none) :
    (TransactionLog.backup (.user p) st = st)
    ∧ ((TransactionLog.write (.user p) c st).ops
        = st.ops ++ [⟨.write, .user p, none⟩])
    ∧ (∀ m, (TransactionLog.write (.user p) c st).fs (.bk m) = st.fs (.bk m))
    ∧ ((TransactionLog.rollback
        (TransactionLog.write (.user p) c (txInit fs0))).fs (.user p) = none) := by
  refine ⟨?_, ?_, ?_, ?_⟩
  · simp [TransactionLog.backup, h]
  · simp [TransactionLog.write, TransactionLog.backup, h]
  · intro m
    simp [TransactionLog.write, TransactionLog.backup, h, fpSet]
  · simp [TransactionLog.rollback, TransactionLog.write, TransactionLog.backup,
      h0, TransactionLog.rollbackStepFS, fpSet, txInit]

/-- Witness for backup_missing_is_noop at concrete inputs. -/
theorem backup_missing_is_noop_witness :
    (TransactionLog.backup (.user "n.txt") (txInit (fun _ => none))
      = txInit (fun _ => none))
    ∧ ((TransactionLog.rollback (TransactionLog.write (.user "n.txt") "c"
        (txInit (fun _ => none)))).fs (.user "n.txt") = none) := by
  have h := backup_missing_is_noop (txInit (fun _ => none)) "n.txt" "c" rfl
    (fun _ => none) rfl
  exact ⟨h.1, h.2.2.2⟩

/-- C10: rollback reverses the operations array in place (the stored array
ends up reversed), so while the first call replays the records in reverse
execution order, a second call to rollback iterates the records in original
execution order — for a transaction with two distinct records the two
iteration orders differ. -/
theorem rollback_not_order_idempotent (st : TxState) :
    ((TransactionLog.rollback st).ops = st.ops.reverse)
    ∧ (TransactionLog.rollbackIterationOrder (TransactionLog.rollback st)
        = st.ops)
    ∧ (∀ o1 o2 : TxOp, st.ops = [o1, o2] → o1 ≠ o2 →
        TransactionLog.rollbackIterationOrder (TransactionLog.rollback st)
          ≠ TransactionLog.rollbackIterationOrder st) := by
  refine ⟨rfl, by simp [TransactionLog.rollbackIterationOrder, TransactionLog.rollback], ?_⟩
  intro o1 o2 hops hne heq
  simp only [TransactionLog.rollbackIterationOrder, TransactionLog.rollback,
    List.reverse_reverse, hops, List.reverse_cons, List.reverse_nil,
    List.nil_append, List.cons_append, List.cons.injEq, List.nil_append] at heq
  exact hne heq.1

/-- Witness for rollback_not_order_idempotent on a concrete two-record
transaction. -/
theorem rollback_not_order_idempotent_witness :
    TransactionLog.rollbackIterationOrder (TransactionLog.rollback
      ⟨fun _ => none, [⟨.write, .user "a", none⟩, ⟨.write, .user "b", none⟩], 0, []⟩)
    ≠ TransactionLog.rollbackIterationOrder
      ⟨fun _ => none, [⟨.write, .user "a", none⟩, ⟨.write, .user "b", none⟩], 0, []⟩ :=
  (rollback_not_order_idempotent _).2.2 _ _ rfl (by decide)

/-- Target path of a request (the path the transaction mutates). -/
def TxReq.target : TxReq → String
  | .write q _ => q
  | .copy _ q => q

/-- Number of mutations of path p in a request list. -/
def mutCount (p : String) (reqs : List TxReq) : Nat :=
  reqs.countP (fun r => r.target == p)

/-- The records of the operations array whose target is the user path p. -/
def recsFor (p : String) (ops : List TxOp) : List TxOp :=
  ops.filter (fun o => o.path == FPath.user p)

/-- Number of Backup records for the user path p. -/
def backupRecsFor (p : String) (ops : List TxOp) : Nat :=
  (recsFor p ops).countP (fun o => o.kind == TxKind.backup)

/-- C8 counterexample: the claim requires EXACTLY one Backup record for a
pre-existing path even when it is written more than once. backup runs on
every write and checks only current existence (src/atomic.ts lines
240-247), so the second write of a.txt (which exists all along) appends a
second Backup record: after two writes the operations array holds two
Backup records for a.txt, not one. -/
theorem double_write_two_backup_records :
    (backupRecsFor "a.txt" (TransactionLog.write (.user "a.txt") "c2"
        (TransactionLog.write (.user "a.txt") "c1" (txInit scenarioFs))).ops = 2)
    ∧ ¬ (backupRecsFor "a.txt" (TransactionLog.write (.user "a.txt") "c2"
        (TransactionLog.write (.user "a.txt") "c1" (txInit scenarioFs))).ops = 1) := by
  refine ⟨rfl, by decide⟩

theorem write_fs_self (st : TxState) (q : String) (c : String) :
    (TransactionLog.write (.user q) c st).fs (.user q) = some c := by
  cases h : st.fs (.user q) <;>
    simp [TransactionLog.write, TransactionLog.backup, h, fpSet]

theorem write_fs_other (st : TxState) (q : String) (c : String) (s : String)
    (hs : s ≠ q) :
    (TransactionLog.write (.user q) c st).fs (.user s) = st.fs (.user s) := by
  cases h : st.fs (.user q) <;>
    simp [TransactionLog.write, TransactionLog.backup, h, fpSet, hs]

theorem recsFor_append (p : String) (l1 l2 : List TxOp) :
    recsFor p (l1 ++ l2) = recsFor p l1 ++ recsFor p l2 := by
  simp [recsFor]

theorem c8_aux (p : String) :
    ∀ (reqs : List TxReq) (st st' : TxState),
      (∃ u, st.fs (.user p) = some u) →
      runReqs st reqs = some st' →
      ∃ tail, recsFor p st'.ops = recsFor p st.ops ++ tail
        ∧ tail.countP (fun o => o.kind == TxKind.backup) = mutCount p reqs
        ∧ (0 < mutCount p reqs →
            tail.head?.map TxOp.kind = some TxKind.backup) := by
  intro reqs
  induction reqs with
  | nil =>
    intro st st' hex h
    simp only [runReqs, Option.some.injEq] at h
    subst h
    exact ⟨[], by simp, by simp [mutCount], by simp [mutCount]⟩
  | cons r rs ih =>
    intro st st' hex h
    obtain ⟨u, hu⟩ := hex
    cases r with
    | write q c =>
      simp only [runReqs, runReq] at h
      by_cases hq : q = p
      · subst hq
        have hops : (TransactionLog.write (.user q) c st).ops
            = st.ops ++ [⟨.backup, .user q, some (.bk st.fresh)⟩,
                ⟨.write, .user q, none⟩] := by
          simp [TransactionLog.write, TransactionLog.backup, hu]
        obtain ⟨tail2, ht1, ht2, ht3⟩ := ih (TransactionLog.write (.user q) c st) st'
          ⟨c, write_fs_self st q c⟩ h
        refine ⟨[⟨.backup, .user q, some (.bk st.fresh)⟩, ⟨.write, .user q, none⟩]
          ++ tail2, ?_, ?_, ?_⟩
        · rw [ht1, hops, recsFor_append]
          have hblock : recsFor q [⟨.backup, .user q, some (.bk st.fresh)⟩,
              ⟨.write, .user q, none⟩] = [⟨.backup, .user q, some (.bk st.fresh)⟩,
              ⟨.write, .user q, none⟩] := by
            simp [recsFor]
          rw [hblock, List.append_assoc]
        · rw [List.countP_append, ht2]
          have hb : ([⟨.backup, .user q, some (.bk st.fresh)⟩,
              ⟨.write, .user q, none⟩] : List TxOp).countP
              (fun o => o.kind == TxKind.backup) = 1 := by
            simp [List.countP_cons]
          rw [hb]
          simp [mutCount, List.countP_cons, TxReq.target]
          omega
        · intro _
          simp
      · have hpres : (TransactionLog.write (.user q) c st).fs (.user p) = some u := by
          rw [write_fs_other st q c p (fun hpe => hq hpe.symm)]
          exact hu
        obtain ⟨tail2, ht1, ht2, ht3⟩ := ih _ st' ⟨u, hpres⟩ h
        have hrec : recsFor p (TransactionLog.write (.user q) c st).ops
            = recsFor p st.ops := by
          cases hfsq : st.fs (.user q) with
          | some w =>
            simp [TransactionLog.write, TransactionLog.backup, hfsq, recsFor, hq]
          | none =>
            simp [TransactionLog.write, TransactionLog.backup, hfsq, recsFor, hq]
        rw [hrec] at ht1
        refine ⟨tail2, ht1, ?_, ?_⟩
        · rw [ht2]
          simp [mutCount, List.countP_cons, TxReq.target, hq]
        · intro hpos
          apply ht3
          have hmc : mutCount p (TxReq.write q c :: rs) = mutCount p rs := by
            simp [mutCount, List.countP_cons, TxReq.target, hq]
          rw [hmc] at hpos
          exact hpos
    | copy s0 q =>
      simp only [runReqs, runReq] at h
      cases hc : TransactionLog.copy (.user s0) (.user q) st with
      | none =>
        rw [hc] at h
        exact absurd h (by simp)
      | some st2 =>
        rw [hc] at h
        obtain ⟨v2, hsrc, hst2⟩ := copy_some_elim hc
        by_cases hq : q = p
        · subst hq
          have hops : st2.ops = st.ops
              ++ [⟨.backup, .user q, some (.bk st.fresh)⟩, ⟨.copy, .user q, none⟩] := by
            rw [hst2]
            simp [TransactionLog.backup, hu]
          have hfs2 : st2.fs (.user q) = some v2 := by
            rw [hst2]
            simp [fpSet]
          obtain ⟨tail2, ht1, ht2, ht3⟩ := ih st2 st' ⟨v2, hfs2⟩ h
          refine ⟨[⟨.backup, .user q, some (.bk st.fresh)⟩, ⟨.copy, .user q, none⟩]
            ++ tail2, ?_, ?_, ?_⟩
          · rw [ht1, hops, recsFor_append]
            have hblock : recsFor q [⟨.backup, .user q, some (.bk st.fresh)⟩,
                ⟨.copy, .user q, none⟩] = [⟨.backup, .user q, some (.bk st.fresh)⟩,
                ⟨.copy, .user q, none⟩] := by
              simp [recsFor]
            rw [hblock, List.append_assoc]
          · rw [List.countP_append, ht2]
            have hb : ([⟨.backup, .user q, some (.bk st.fresh)⟩,
                ⟨.copy, .user q, none⟩] : List TxOp).countP
                (fun o => o.kind == TxKind.backup) = 1 := by
              simp [List.countP_cons]
            rw [hb]
            simp [mutCount, List.countP_cons, TxReq.target]
            omega
          · intro _
            simp
        · have hpq : ¬ p = q := fun hpe => hq hpe.symm
          have hpres : st2.fs (.user p) = some u := by
            rw [hst2]
            cases hfsq : st.fs (.user q) with
            | some w =>
              simp [TransactionLog.backup, hfsq, fpSet, hpq, hu]
            | none =>
              simp [TransactionLog.backup, hfsq, fpSet, hpq, hu]
          have hrec : recsFor p st2.ops = recsFor p st.ops := by
            rw [hst2]
            cases hfsq : st.fs (.user q) with
            | some w =>
              simp [TransactionLog.backup, hfsq, recsFor, hq]
            | none =>
              simp [TransactionLog.backup, hfsq, recsFor, hq]
          obtain ⟨tail2, ht1, ht2, ht3⟩ := ih st2 st' ⟨u, hpres⟩ h
          rw [hrec] at ht1
          refine ⟨tail2, ht1, ?_, ?_⟩
          · rw [ht2]
            simp [mutCount, List.countP_cons, TxReq.target, hq]
          · intro hpos
            apply ht3
            have hmc : mutCount p (TxReq.copy s0 q :: rs) = mutCount p rs := by
              simp [mutCount, List.countP_cons, TxReq.target, hq]
            rw [hmc] at hpos
            exact hpos

/-- C8 (amended): for every transaction run and every pre-existing path p,
the operations array holds one Backup record for p per mutation of p — not
exactly one overall: a path mutated k times gets k Backup records, each
backing up the then-current content — and a Backup record for p precedes
p's first Write/Copy record (the first record mentioning p is a Backup
record). -/
theorem preexisting_backup_records (fs0 : String → Option String)
    (reqs : List TxReq) (st' : TxState) (p : String) (v : String)
    (h0 : fs0 p = some v) (h : runReqs (txInit fs0) reqs = some st') :
    (backupRecsFor p st'.ops = mutCount p reqs)
    ∧ (0 < mutCount p reqs →
        (recsFor p st'.ops).head?.map TxOp.kind = some TxKind.backup) := by
  have hex : ∃ u, (txInit fs0).fs (.user p) = some u := ⟨v, by simp [txInit, h0]⟩
  obtain ⟨tail, ht1, ht2, ht3⟩ := c8_aux p reqs (txInit fs0) st' hex h
  have hempty : recsFor p (txInit fs0).ops = [] := rfl
  rw [hempty, List.nil_append] at ht1
  constructor
  · unfold backupRecsFor
    rw [ht1]
    exact ht2
  · intro hpos
    rw [ht1]
    exact ht3 hpos

/-- Witness for preexisting_backup_records: the double write of the
counterexample has two mutations, two Backup records, and a Backup record
first among the records of a.txt. -/
theorem preexisting_backup_records_witness :
    (backupRecsFor "a.txt" (TransactionLog.write (.user "a.txt") "c2"
        (TransactionLog.write (.user "a.txt") "c1" (txInit scenarioFs))).ops
      = mutCount "a.txt" [.write "a.txt" "c1", .write "a.txt" "c2"])
    ∧ ((recsFor "a.txt" (TransactionLog.write (.user "a.txt") "c2"
        (TransactionLog.write (.user "a.txt") "c1" (txInit scenarioFs))).ops).head?.map
        TxOp.kind = some TxKind.backup) := by
  have h := preexisting_backup_records scenarioFs
    [.write "a.txt" "c1", .write "a.txt" "c2"]
    (TransactionLog.write (.user "a.txt") "c2"
      (TransactionLog.write (.user "a.txt") "c1" (txInit scenarioFs)))
    "a.txt" "old" rfl rfl
  exact ⟨h.1, h.2 (by decide)⟩
